import Mathlib

set_option maxRecDepth 8000

/-!
Shallow embedding of the hierarchical legal-text parser, the citation
renderer and the rendered-text post-processor of `open_ai_indexing.py`
(the same functions are duplicated verbatim in the sibling indexing
scripts of the repository).

Machine strings are modelled as `String`/`List Char`.  Python's `\d`,
`\s` and `str.strip()` are modelled on the ASCII range actually occurring
in the data; the two case-insensitive keyword patterns additionally need
the uppercase Vietnamese letters of the keywords themselves, handled by
`viLower`.
-/

/-- ASCII whitespace: Python's `\s` / `str.strip()` on the ASCII range. -/
def isSpaceC (c : Char) : Bool :=
  c = ' ' || c = '\t' || c = '\n' || c = '\r' || c = '\x0b' || c = '\x0c'

/-- Python `str.strip`-style trimming of both ends by a character test. -/
def stripWhile (p : Char → Bool) (l : List Char) : List Char :=
  ((l.dropWhile p).reverse.dropWhile p).reverse

/-- Python `text.split("\n")` (note: the empty string yields `[[]]`). -/
def splitNl : List Char → List (List Char)
  | [] => [[]]
  | c :: cs =>
    if c = '\n' then [] :: splitNl cs
    else
      match splitNl cs with
      | h :: t => (c :: h) :: t
      | [] => [[c]]

/-- Lowercasing used for the `re.IGNORECASE` keyword comparisons: ASCII
`Char.toLower` extended to the uppercase Vietnamese letters that occur in
the two keywords `Chương` and `Điều`. -/
def viLower (c : Char) : Char :=
  if c = 'Đ' then 'đ'
  else if c = 'Ư' then 'ư'
  else if c = 'Ơ' then 'ơ'
  else if c = 'Ề' then 'ề'
  else c.toLower

/-- Case-insensitive literal keyword match (keyword given lowercase);
returns the remainder of the line after the keyword. -/
def matchKeyword : List Char → List Char → Option (List Char)
  | [], s => some s
  | _ :: _, [] => none
  | k :: ks, c :: cs => if viLower c = k then matchKeyword ks cs else none

/-- The `[IVXLCDM]` class under `re.IGNORECASE`. -/
def isRomanC (c : Char) : Bool :=
  viLower c = 'i' || viLower c = 'v' || viLower c = 'x' ||
  viLower c = 'l' || viLower c = 'c' || viLower c = 'd' || viLower c = 'm'

/-- `CHUONG_PATTERN = re.compile(r"^Chương\s+([IVXLCDM]+|\d+)", re.IGNORECASE)`:
whether the line opens a chapter (only the fact of a match is used; the
chapter stores the whole line). -/
def chuongMatches (l : List Char) : Bool :=
  match matchKeyword ['c', 'h', 'ư', 'ơ', 'n', 'g'] l with
  | none => false
  | some [] => false
  | some (c :: rest) =>
    isSpaceC c &&
      (match rest.dropWhile isSpaceC with
       | [] => false
       | d :: _ => isRomanC d || d.isDigit)

/-- The `[a-zđ]` class of `DIEU_PATTERN` under `re.IGNORECASE`. -/
def isDieuTrail (c : Char) : Bool :=
  (decide ('a' ≤ viLower c) && decide (viLower c ≤ 'z')) || viLower c = 'đ'

/-- `DIEU_PATTERN = re.compile(r"^Điều\s+(\d+[a-zđ]?)", re.IGNORECASE)`:
returns group 1 (the article number) and the rest of the line after the
whole match (`line[dieu_match.end():]`). -/
def dieuMatch (l : List Char) : Option (List Char × List Char) :=
  match matchKeyword ['đ', 'i', 'ề', 'u'] l with
  | none => none
  | some [] => none
  | some (c :: rest) =>
    if isSpaceC c then
      let rest2 := rest.dropWhile isSpaceC
      let ds := rest2.takeWhile Char.isDigit
      if ds.isEmpty then none
      else
        match rest2.drop ds.length with
        | [] => some (ds, [])
        | e :: rest3 =>
          if isDieuTrail e then some (ds ++ [e], rest3) else some (ds, e :: rest3)
    else none

/-- `KHOAN_PATTERN = re.compile(r"^(\d+)\.\s*(.*)")`: clause number and
inline content (group 2, i.e. the rest of the line after `\.\s*`). -/
def khoanMatch (l : List Char) : Option (List Char × List Char) :=
  let ds := l.takeWhile Char.isDigit
  if ds.isEmpty then none
  else
    match l.drop ds.length with
    | c :: rest => if c = '.' then some (ds, rest.dropWhile isSpaceC) else none
    | [] => none

/-- The `[a-zđA-ZĐ]` class of `MUC_PATTERN` (compiled without flags). -/
def isMucLetter (c : Char) : Bool :=
  (decide ('a' ≤ c) && decide (c ≤ 'z')) ||
  (decide ('A' ≤ c) && decide (c ≤ 'Z')) || c = 'đ' || c = 'Đ'

/-- `MUC_PATTERN = re.compile(r"^([a-zđA-ZĐ])\)\s*(.*)")`: point letter and
inline content. -/
def mucMatch : List Char → Option (Char × List Char)
  | c :: d :: rest =>
    if d = ')' && isMucLetter c then some (c, rest.dropWhile isSpaceC) else none
  | _ => none

/-- A point dict `{"Muc": ..., "Content": ...}`. -/
structure Muc where
  muc : String
  content : String
deriving Repr, DecidableEq

/-- A clause dict `{"Khoan": ..., "Content": ..., "Muc": [...]}`. -/
structure Khoan where
  khoan : String
  content : String
  muc : List Muc
deriving Repr, DecidableEq

/-- An article dict `{"Dieu": ..., "Content": ..., "Khoan": [...]}`. -/
structure Dieu where
  dieu : String
  content : String
  khoan : List Khoan
deriving Repr, DecidableEq

/-- A root node of the hierarchy list: either a chapter dict
`{"Chuong": ..., "Dieu": [...]}` (with an optional `"Content"` key that is
added on first plain append) or a `{"Preamble": ...}` dict. -/
inductive Node where
  | chuong (title : String) (content : Option String) (dieu : List Dieu)
  | preamble (text : String)
deriving Repr, DecidableEq

/-- The clause designated by `current_khoan`, together with `current_muc`.
In the Python code `current_muc`, when set, is always the last element of
this clause's `"Muc"` list, so it is kept apart here and re-attached by
`OpenKhoan.close`. -/
structure OpenKhoan where
  khoan : String
  content : String
  doneMuc : List Muc
  curMuc : Option Muc
deriving Repr, DecidableEq

/-- The article designated by `current_dieu`, together with `current_khoan`. -/
structure OpenDieu where
  dieu : String
  content : String
  doneKhoan : List Khoan
  curKhoan : Option OpenKhoan
deriving Repr, DecidableEq

/-- The chapter designated by `current_chuong`, together with `current_dieu`. -/
structure OpenChuong where
  title : String
  content : Option String
  doneDieu : List Dieu
  curDieu : Option OpenDieu
deriving Repr, DecidableEq

/-- The loop state of `parse_text`: the hierarchy built so far.  In the
Python code `current_chuong`, once set, is always the last element of
`hierarchy`; it is kept apart in `cur` and re-attached by `ParseState.tree`. -/
structure ParseState where
  done : List Node
  cur : Option OpenChuong
deriving Repr, DecidableEq

def OpenKhoan.close (k : OpenKhoan) : Khoan :=
  ⟨k.khoan, k.content, k.doneMuc ++ k.curMuc.toList⟩

def OpenDieu.close (d : OpenDieu) : Dieu :=
  ⟨d.dieu, d.content, d.doneKhoan ++ (d.curKhoan.map OpenKhoan.close).toList⟩

def OpenChuong.close (c : OpenChuong) : Node :=
  .chuong c.title c.content (c.doneDieu ++ (c.curDieu.map OpenDieu.close).toList)

/-- The hierarchy list this state denotes. -/
def ParseState.tree (s : ParseState) : List Node :=
  s.done ++ (s.cur.map OpenChuong.close).toList

/-- The final `else` cascade of the loop body: append `" " + line` to the
innermost open node, checked in the order muc, khoan, dieu, chuong, else
preamble.  The Python guard `if "Preamble" not in hierarchy` tests whether
the string `"Preamble"` is an element of `hierarchy`, which is a list of
dicts, so it is always true: a fresh `{"Preamble": line}` dict is appended
on every use and the `hierarchy[-1]["Preamble"] += " " + line` branch is
dead code. -/
def stepPlain (s : ParseState) (line : String) : ParseState :=
  match s.cur with
  | some c =>
    match c.curDieu with
    | some d =>
      match d.curKhoan with
      | some k =>
        match k.curMuc with
        | some m =>
          let m' : Muc := { m with content := m.content ++ " " ++ line }
          { s with cur := some { c with curDieu := some { d with curKhoan := some { k with curMuc := some m' } } } }
        | none =>
          let k' : OpenKhoan := { k with content := k.content ++ " " ++ line }
          { s with cur := some { c with curDieu := some { d with curKhoan := some k' } } }
      | none =>
        let d' : OpenDieu := { d with content := d.content ++ " " ++ line }
        { s with cur := some { c with curDieu := some d' } }
    | none =>
      { s with cur := some { c with content := some ((c.content.getD "") ++ " " ++ line) } }
  | none => { s with done := s.done ++ [Node.preamble line] }

/-- One iteration of the `for line in text.split("\n")` loop body, after
stripping, on a non-empty line: the chain of pattern checks of
`parse_text`. -/
def step (s : ParseState) (l : List Char) : ParseState :=
  let lineS : String := ⟨l⟩
  if chuongMatches l then
    { done := s.done ++ (s.cur.map OpenChuong.close).toList,
      cur := some ⟨lineS, none, [], none⟩ }
  else
    match dieuMatch l with
    | some (num, rest) =>
      let newDieu : OpenDieu :=
        ⟨"Dieu " ++ String.mk num,
         ⟨stripWhile isSpaceC (stripWhile (fun c => c = '.' || c = ' ') rest)⟩, [], none⟩
      match s.cur with
      | none => { done := s.done, cur := some ⟨"Chuong 0", none, [], some newDieu⟩ }
      | some c =>
        { done := s.done,
          cur := some { c with
            doneDieu := c.doneDieu ++ (c.curDieu.map OpenDieu.close).toList,
            curDieu := some newDieu } }
    | none =>
      let tryMuc : ParseState :=
        match mucMatch l with
        | some (letter, rest) =>
          match s.cur with
          | some c =>
            match c.curDieu with
            | some d =>
              match d.curKhoan with
              | some k =>
                let k' : OpenKhoan := { k with doneMuc := k.doneMuc ++ k.curMuc.toList,
                                               curMuc := some ⟨"Muc " ++ String.mk [letter], ⟨rest⟩⟩ }
                { s with cur := some { c with curDieu := some { d with curKhoan := some k' } } }
              | none => stepPlain s lineS
            | none => stepPlain s lineS
          | none => stepPlain s lineS
        | none => stepPlain s lineS
      match khoanMatch l with
      | some (num, rest) =>
        match s.cur with
        | some c =>
          match c.curDieu with
          | some d =>
            let d' : OpenDieu := { d with doneKhoan := d.doneKhoan ++ (d.curKhoan.map OpenKhoan.close).toList,
                                          curKhoan := some ⟨"Khoan " ++ String.mk num, ⟨rest⟩, [], none⟩ }
            { s with cur := some { c with curDieu := some d' } }
          | none => tryMuc
        | none => tryMuc
      | none => tryMuc

/-- The `for` loop of `parse_text`: strip each line, skip empties, feed the
rest to `step`. -/
def parseLines (s : ParseState) : List (List Char) → ParseState
  | [] => s
  | l :: ls =>
    let l' := stripWhile isSpaceC l
    if l'.isEmpty then parseLines s ls else parseLines (step s l') ls

/-- `parse_text(text)`: the hierarchy list parsed from the raw text. -/
def parse_text (text : String) : List Node :=
  (parseLines ⟨[], none⟩ (splitNl text.data)).tree

/-!  The citation renderer `get_text_from_structure` and the module-level
post-processing of rendered article text. -/

/-- One scan step of Python `str.replace` (all non-overlapping occurrences,
left to right).  The extra `Nat` is fuel, structurally consumed so that the
definition is kernel-computable; one unit per consumed character suffices,
so the fuel-exhausted branch is unreachable when called with
`fuel = s.length`.  The pattern is given as head and tail and is hence
never empty (every use site has a non-empty literal pattern). -/
def replScan (p : Char) (ps : List Char) (repl : List Char) : Nat → List Char → List Char
  | 0, s => s
  | _ + 1, [] => []
  | fuel + 1, c :: cs =>
    if p = c && ps.isPrefixOf cs then
      repl ++ replScan p ps repl fuel (cs.drop ps.length)
    else
      c :: replScan p ps repl fuel cs

/-- Python `s.replace(pat, repl)` for a non-empty pattern. -/
def pyReplace (s pat repl : String) : String :=
  match pat.data with
  | [] => s
  | p :: ps => ⟨replScan p ps repl.data s.data.length s.data⟩

/-- One line of the inner `for muc in khoan["Muc"]` loop:
`f"{muc['Muc'].replace('Muc ', item_annotation)}) {item_prefix}{muc['Content']}\n"`. -/
def mucLine (itemAnn itemPre : String) (m : Muc) : String :=
  pyReplace m.muc "Muc " itemAnn ++ ") " ++ itemPre ++ m.content ++ "\n"

/-- The `for khoan in dieu["Khoan"]` loop of `get_text_from_structure`,
threading the accumulated `content` and the `item_prefix` variable (which
is overwritten per clause only when `kdm` is set). -/
def khoanLoop (kdm : Bool) (clauseAnn itemAnn clausePre : String) :
    String → String → List Khoan → String
  | content, _, [] => content
  | content, itemPre, k :: ks =>
    let content := content ++ pyReplace k.khoan "Khoan " clauseAnn ++ ". " ++
      clausePre ++ k.content ++ "\n"
    let itemPre := if kdm then
        pyReplace k.khoan "Khoan " clauseAnn ++ " " ++ clausePre ++ " "
      else itemPre
    let content := content ++ String.join (k.muc.map (mucLine itemAnn itemPre))
    khoanLoop kdm clauseAnn itemAnn clausePre content itemPre ks

/-- `get_text_from_structure(dieu, kdm)`: flatten one article into its
canonical text block. -/
def get_text_from_structure (dieu : Dieu) (kdm : Bool) : String :=
  let head := pyReplace dieu.dieu "Dieu" "Điều"
  let head := head ++ ". " ++ dieu.content ++ "\n"
  let clauseAnn := if kdm then "Khoản " else ""
  let itemAnn := if kdm then "Điểm " else ""
  let clausePre := if kdm then pyReplace dieu.dieu "Dieu" "Điều" ++ " " else ""
  khoanLoop kdm clauseAnn itemAnn clausePre head "" dieu.khoan

/-- A token of the tiny regex fragment needed by the two post-processing
patterns: literals, single-character classes, greedy `?` and `+`, lazy
`+?`, a greedy optional literal group, and the `$` anchor. -/
inductive Tok where
  | lit (c : Char)
  | one (p : Char → Bool)
  | optC (p : Char → Bool)
  | plusG (p : Char → Bool)
  | starG (p : Char → Bool)
  | plusL (p : Char → Bool)
  | starL (p : Char → Bool)
  | optStr (c : Char) (cs : List Char)
  | eol

/-- Backtracking matcher at a fixed position, with Python `re` ordering
(greedy quantifiers try the longer continuation first, lazy ones the
shorter; `$` without `MULTILINE` matches at the end of the text or just
before a final newline).  Returns the remainder after the match.  The
`Nat` is fuel, structurally consumed for kernel computability; every
recursive call shrinks `toks.length + s.length`, so
`fuel = toks.length + s.length + 1` suffices and the fuel-exhausted
branch is unreachable. -/
def matchToksF : Nat → List Tok → List Char → Option (List Char)
  | 0, _, _ => none
  | _ + 1, [], s => some s
  | _ + 1, .lit _ :: _, [] => none
  | f + 1, .lit a :: ts, c :: s => if c = a then matchToksF f ts s else none
  | _ + 1, .one _ :: _, [] => none
  | f + 1, .one p :: ts, c :: s => if p c then matchToksF f ts s else none
  | f + 1, .optC _ :: ts, [] => matchToksF f ts []
  | f + 1, .optC p :: ts, c :: s =>
    if p c then (matchToksF f ts s).orElse (fun _ => matchToksF f ts (c :: s))
    else matchToksF f ts (c :: s)
  | _ + 1, .plusG _ :: _, [] => none
  | f + 1, .plusG p :: ts, c :: s => if p c then matchToksF f (.starG p :: ts) s else none
  | f + 1, .starG _ :: ts, [] => matchToksF f ts []
  | f + 1, .starG p :: ts, c :: s =>
    if p c then (matchToksF f (.starG p :: ts) s).orElse (fun _ => matchToksF f ts (c :: s))
    else matchToksF f ts (c :: s)
  | _ + 1, .plusL _ :: _, [] => none
  | f + 1, .plusL p :: ts, c :: s => if p c then matchToksF f (.starL p :: ts) s else none
  | f + 1, .starL _ :: ts, [] => matchToksF f ts []
  | f + 1, .starL p :: ts, c :: s =>
    (matchToksF f ts (c :: s)).orElse
      (fun _ => if p c then matchToksF f (.starL p :: ts) s else none)
  | f + 1, .optStr a as :: ts, s =>
    if (a :: as).isPrefixOf s then
      (matchToksF f ts (s.drop (as.length + 1))).orElse (fun _ => matchToksF f ts s)
    else matchToksF f ts s
  | f + 1, .eol :: ts, s =>
    if s = [] ∨ s = ['\n'] then matchToksF f ts s else none

/-- Match the token pattern at the start of `s`, with sufficient fuel. -/
def matchAt (ts : List Tok) (s : List Char) : Option (List Char) :=
  matchToksF (ts.length + s.length + 1) ts s

/-- Python `re.search(pattern, s) is not None`: try every start position,
left to right. -/
def searchToks (ts : List Tok) : List Char → Bool
  | [] => (matchAt ts []).isSome
  | c :: s => (matchAt ts (c :: s)).isSome || searchToks ts s

/-- Python `re.sub(pattern, "", s)`: delete every non-overlapping match,
scanning left to right (a zero-width match deletes nothing and the scan
advances one character, as in Python).  Fueled structurally;
`fuel = s.length` suffices. -/
def subToksF (ts : List Tok) : Nat → List Char → List Char
  | 0, s => s
  | _ + 1, [] => []
  | f + 1, c :: s =>
    match matchAt ts (c :: s) with
    | some r => if r.length ≤ s.length then subToksF ts f r else c :: subToksF ts f s
    | none => c :: subToksF ts f s

/-- Python `re.sub(pattern, "", s)` with the fuel filled in. -/
def subToks (ts : List Tok) (s : List Char) : List Char :=
  subToksF ts s.length s

/-- Tokens of `"Mục [0-9]+[a-zđ]?. "` (no flags): note the unescaped `.`,
which matches any character but a newline. -/
def mucMarkSearch : List Tok :=
  [.lit 'M', .lit 'ụ', .lit 'c', .lit ' ', .plusG Char.isDigit,
   .optC (fun c => decide ('a' ≤ c) && decide (c ≤ 'z') || c = 'đ'),
   .one (fun c => c ≠ '\n'), .lit ' ']

/-- Tokens of `"Mục [0-9]+[a-zđ]?. .+?$"` (no flags, so `.` stops at
newlines and `$` is end-of-text or before a final newline). -/
def mucMarkSub : List Tok :=
  mucMarkSearch ++ [.plusL (fun c => c ≠ '\n'), .eol]

/-- Tokens of `"Luật này (đã )?được Quốc hội"`. -/
def luatSearch : List Tok :=
  ("Luật này ".data.map Tok.lit) ++ [.optStr 'đ' "ã ".data] ++
    ("được Quốc hội".data.map Tok.lit)

/-- Tokens of `"Luật này (đã )?được Quốc hội.+?$"` with `re.DOTALL`
(`.` also matches newlines). -/
def luatSub : List Tok :=
  luatSearch ++ [.plusL (fun _ => true), .eol]

/-- The module-level post-processing applied to each rendered article text:
rule 1 (sub-heading marker) then rule 2 (enactment boilerplate), each
guarded by the corresponding `re.search`. -/
def post_process (content : String) : String :=
  let content :=
    if searchToks mucMarkSearch content.data then ⟨subToks mucMarkSub content.data⟩
    else content
  if searchToks luatSearch content.data then ⟨subToks luatSub content.data⟩
  else content

/-!  Helper lemmas about `String` append and join. -/

theorem strAppend_nil (s : String) : s ++ "" = s := by
  cases s; show String.mk _ = _; rw [List.append_nil]

theorem strNil_append (s : String) : "" ++ s = s := by
  cases s; rfl

theorem strAppend_assoc (a b c : String) : a ++ b ++ c = a ++ (b ++ c) := by
  cases a; cases b; cases c; show String.mk _ = String.mk _; rw [List.append_assoc]

theorem strFoldl_append (l : List String) (a : String) :
    l.foldl (fun r s => r ++ s) a = a ++ l.foldl (fun r s => r ++ s) "" := by
  induction l generalizing a with
  | nil => simp only [List.foldl]; exact (strAppend_nil a).symm
  | cons x xs ih =>
    simp only [List.foldl]
    rw [ih (a ++ x), ih ("" ++ x), strNil_append, strAppend_assoc]

theorem strJoin_cons (x : String) (xs : List String) :
    String.join (x :: xs) = x ++ String.join xs := by
  show (x :: xs).foldl (fun r s => r ++ s) "" = _
  simp only [List.foldl]
  rw [strFoldl_append]
  rfl

/-!  The shape of `get_text_from_structure` output for `kdm = true`,
stated as named line builders (the amended form of the point-line rule:
the clause label is re-used without the period of the clause line). -/

/-- The clause label of a rendered clause line when `kdm` is set. -/
def clauseLabelR (k : Khoan) : String := pyReplace k.khoan "Khoan " "Khoản "

/-- The article citation inserted after the clause label when `kdm` is set. -/
def artPre (d : Dieu) : String := pyReplace d.dieu "Dieu" "Điều" ++ " "

/-- The `item_prefix` carried into each point line when `kdm` is set: the
clause label (without the period of the clause line), the article citation
and one more space. -/
def pointPre (d : Dieu) (k : Khoan) : String :=
  clauseLabelR k ++ " " ++ artPre d ++ " "

/-- One clause line of the `kdm = true` rendering. -/
def clauseLineR (d : Dieu) (k : Khoan) : String :=
  clauseLabelR k ++ ". " ++ artPre d ++ k.content ++ "\n"

/-- One point line of the `kdm = true` rendering. -/
def pointLineR (d : Dieu) (k : Khoan) (m : Muc) : String :=
  pyReplace m.muc "Muc " "Điểm " ++ ") " ++ pointPre d k ++ m.content ++ "\n"

/-- The whole `kdm = true` rendering of one article, line by line. -/
def articleBlockR (d : Dieu) : String :=
  pyReplace d.dieu "Dieu" "Điều" ++ ". " ++ d.content ++ "\n" ++
    String.join (d.khoan.map (fun k =>
      clauseLineR d k ++ String.join (k.muc.map (pointLineR d k))))

theorem khoanLoop_true_eq (cPre : String) (ks : List Khoan) :
    ∀ content iPre : String,
      khoanLoop true "Khoản " "Điểm " cPre content iPre ks =
        content ++ String.join (ks.map (fun k =>
          (pyReplace k.khoan "Khoan " "Khoản " ++ ". " ++ cPre ++ k.content ++ "\n") ++
          String.join (k.muc.map
            (mucLine "Điểm " (pyReplace k.khoan "Khoan " "Khoản " ++ " " ++ cPre ++ " "))))) := by
  induction ks with
  | nil => intro content iPre; simp only [khoanLoop, List.map_nil]; exact (strAppend_nil content).symm
  | cons k ks ih =>
    intro content iPre
    simp only [khoanLoop, if_pos, List.map_cons]
    rw [ih, strJoin_cons]
    simp only [strAppend_assoc]

/-- The scenario article parsed from
`"Điều 1. Phạm vi\n1. Nội dung A\na) Chi tiết"`. -/
def scenarioDieu : Dieu :=
  ⟨"Dieu 1", "Phạm vi", [⟨"Khoan 1", "Nội dung A", [⟨"Muc a", "Chi tiết"⟩]⟩]⟩

/-- Modelled from the spec: the §4.4 sub-heading marker read with a literal
period, `"Mục <digits><optional letter>. "` — for comparison with the
code's pattern, whose unescaped `.` matches any non-newline character. -/
def mucMarkSearchSpec : List Tok :=
  [.lit 'M', .lit 'ụ', .lit 'c', .lit ' ', .plusG Char.isDigit,
   .optC (fun c => decide ('a' ≤ c) && decide (c ≤ 'z') || c = 'đ'),
   .lit '.', .lit ' ']

/-- C1, counterexample: on the tree parsed from the scenario input, the
`expandCitation = true` point line is NOT
`"Điểm a) Khoản 1. Điều 1  Chi tiết\n"` — the rendered output differs from
the text the claim asserts (the `item_prefix` re-uses the clause label
without the period that the clause line adds after it). -/
theorem C1_point_period_cex :
    parse_text "Điều 1. Phạm vi\n1. Nội dung A\na) Chi tiết" =
      [Node.chuong "Chuong 0" none [scenarioDieu]] ∧
    get_text_from_structure scenarioDieu true ≠
      "Điều 1. Phạm vi\nKhoản 1. Điều 1 Nội dung A\nĐiểm a) Khoản 1. Điều 1  Chi tiết\n" := by
  exact ⟨by decide, by decide⟩

/-- C1, amended: for every article rendered with `expandCitation = true`,
each point line is `"<pointLabel>) <pointPrefix><point content>"` where the
point prefix is the clause label (without the period the clause line puts
after it), a space, the article prefix, and one more space; in particular
the scenario's clause line is `"Khoản 1. Điều 1 Nội dung A\n"` and its
point line is `"Điểm a) Khoản 1 Điều 1  Chi tiết\n"`. -/
theorem C1_point_citation_amended :
    (∀ d : Dieu, get_text_from_structure d true = articleBlockR d) ∧
    get_text_from_structure scenarioDieu true =
      "Điều 1. Phạm vi" ++ "\n" ++ "Khoản 1. Điều 1 Nội dung A" ++ "\n" ++
        "Điểm a) Khoản 1 Điều 1  Chi tiết" ++ "\n" := by
  constructor
  · intro d
    unfold get_text_from_structure articleBlockR
    simp only [if_pos]
    rw [khoanLoop_true_eq]
    rfl
  · decide

/-- C2, code bug: the guard `if "Preamble" not in hierarchy` asks whether
the string `"Preamble"` is an element of `hierarchy` — a list of dicts —
so it is always true, a fresh Preamble node is appended for every plain
line before any chapter, and the branch appending to an existing Preamble
is dead: two plain leading lines yield two Preamble roots, not one. -/
theorem C2_two_preambles :
    parse_text "a\nb" = [Node.preamble "a", Node.preamble "b"] := by decide

/-- C3, counterexample: the spec's own example is cut only to the end of
its final line: the trailing newline survives, so the result is
`"nội dung\n\n"`, not `"nội dung\n"`. -/
theorem C3_truncation_cex :
    post_process "nội dung\nMục 2. Quyền và nghĩa vụ\n" ≠ "nội dung\n" := by decide

/-- C4, counterexample: a text with no literal-period sub-heading marker
and no enactment marker is still changed by post-processing, because the
unescaped `.` of the code's pattern matches the comma. -/
theorem C4_no_marker_cex :
    searchToks mucMarkSearchSpec "Xem Mục 2, phần sau\n".data = false ∧
    searchToks luatSearch "Xem Mục 2, phần sau\n".data = false ∧
    post_process "Xem Mục 2, phần sau\n" ≠ "Xem Mục 2, phần sau\n" := by
  exact ⟨by decide, by decide, by decide⟩

/-- C4, amended: when neither the code's sub-heading pattern (with the
unescaped `.` wildcard) nor the enactment pattern matches anywhere in the
text, post-processing returns the text unchanged. -/
theorem C4_no_marker_id (t : String)
    (h1 : searchToks mucMarkSearch t.data = false)
    (h2 : searchToks luatSearch t.data = false) :
    post_process t = t := by
  unfold post_process
  rw [h1]
  simp only [Bool.false_eq_true, if_false]
  rw [h2]
  simp only [Bool.false_eq_true, if_false]

/-- C4, witness for the amended theorem at `"xin chào\n"`. -/
theorem C4_no_marker_id_w :
    searchToks mucMarkSearch "xin chào\n".data = false ∧
    searchToks luatSearch "xin chào\n".data = false ∧
    post_process "xin chào\n" = "xin chào\n" := by
  exact ⟨by decide, by decide, C4_no_marker_id "xin chào\n" (by decide) (by decide)⟩

/-- C6: the scenario input parses to one synthesized default chapter
holding article 1 (content `"Phạm vi"`), clause 1 (content
`"Nội dung A"`), point a (content `"Chi tiết"`), and rendering that
article with `expandCitation = false` reproduces the source lines. -/
theorem C6_scenario :
    parse_text "Điều 1. Phạm vi\n1. Nội dung A\na) Chi tiết" =
      [Node.chuong "Chuong 0" none [scenarioDieu]] ∧
    get_text_from_structure scenarioDieu false =
      "Điều 1. Phạm vi\n1. Nội dung A\na) Chi tiết\n" := by
  exact ⟨by decide, by decide⟩

/-- C8: parsing is total — it is a structurally recursive function defined
on every string, so every input (the empty string included) yields a
hierarchy; the empty string yields the empty hierarchy. -/
theorem C8_total :
    parse_text "" = [] ∧ ∀ text : String, ∃ t : List Node, parse_text text = t := by
  exact ⟨by decide, fun text => ⟨parse_text text, rfl⟩⟩

theorem uint32_le_toNat {n m : UInt32} (h : n ≤ m) : n.toNat ≤ m.toNat := by
  simp only [UInt32.le_def, BitVec.le_def] at h
  exact h

theorem viLower_of_isDigit {c : Char} (h : c.isDigit = true) : viLower c = c := by
  simp only [Char.isDigit, Bool.and_eq_true, decide_eq_true_eq] at h
  obtain ⟨h1, h2⟩ := h
  have ht : c.toNat ≤ 57 := uint32_le_toNat h2
  unfold viLower
  have hD : c ≠ 'Đ' := by intro he; rw [he] at ht; exact absurd ht (by decide)
  have hU : c ≠ 'Ư' := by intro he; rw [he] at ht; exact absurd ht (by decide)
  have hO : c ≠ 'Ơ' := by intro he; rw [he] at ht; exact absurd ht (by decide)
  have hE : c ≠ 'Ề' := by intro he; rw [he] at ht; exact absurd ht (by decide)
  rw [if_neg hD, if_neg hU, if_neg hO, if_neg hE]
  unfold Char.toLower
  rw [if_neg]
  intro hc
  omega

theorem isMucLetter_of_isDigit {c : Char} (h : c.isDigit = true) : isMucLetter c = false := by
  simp only [Char.isDigit, Bool.and_eq_true, decide_eq_true_eq] at h
  obtain ⟨h1, h2⟩ := h
  have ht : c.toNat ≤ 57 := uint32_le_toNat h2
  have hva : ('a'.val).toNat = 97 := rfl
  have hvA : ('A'.val).toNat = 65 := rfl
  unfold isMucLetter
  have ha : ¬ ('a' ≤ c) := by
    intro hle
    have h3 := uint32_le_toNat (hle : 'a'.val ≤ c.val)
    rw [hva] at h3
    simp only [Char.toNat] at ht
    omega
  have hA : ¬ ('A' ≤ c) := by
    intro hle
    have h3 := uint32_le_toNat (hle : 'A'.val ≤ c.val)
    rw [hvA] at h3
    simp only [Char.toNat] at ht
    omega
  have hd : c ≠ 'đ' := by intro he; rw [he] at ht; exact absurd ht (by decide)
  have hD : c ≠ 'Đ' := by intro he; rw [he] at ht; exact absurd ht (by decide)
  simp [ha, hA, hd, hD]

theorem matchKeyword_head_none {k : Char} {ks : List Char} {c : Char} {t : List Char}
    (hc : viLower c ≠ k) : matchKeyword (k :: ks) (c :: t) = none := by
  unfold matchKeyword
  rw [if_neg hc]

theorem matchKeyword_second_none {k1 k2 : Char} {ks : List Char} {c x : Char} {t : List Char}
    (hx : viLower x ≠ k2) : matchKeyword (k1 :: k2 :: ks) (c :: x :: t) = none := by
  unfold matchKeyword
  by_cases hc : viLower c = k1
  · rw [if_pos hc]
    unfold matchKeyword
    rw [if_neg hx]
  · rw [if_neg hc]

theorem chuongMatches_digit {c : Char} (h : c.isDigit = true) (t : List Char) :
    chuongMatches (c :: t) = false := by
  have hne : viLower c ≠ 'c' := by
    rw [viLower_of_isDigit h]
    intro he; rw [he] at h; exact absurd h (by decide)
  unfold chuongMatches
  rw [matchKeyword_head_none hne]

theorem dieuMatch_digit {c : Char} (h : c.isDigit = true) (t : List Char) :
    dieuMatch (c :: t) = none := by
  have hne : viLower c ≠ 'đ' := by
    rw [viLower_of_isDigit h]
    intro he; rw [he] at h; exact absurd h (by decide)
  unfold dieuMatch
  rw [matchKeyword_head_none hne]

theorem khoanMatch_some_head {l n r : List Char} (h : khoanMatch l = some (n, r)) :
    ∃ c t, l = c :: t ∧ c.isDigit = true := by
  match l with
  | [] => simp [khoanMatch] at h
  | c :: t =>
    by_cases hd : c.isDigit = true
    · exact ⟨c, t, rfl, hd⟩
    · rw [khoanMatch] at h
      simp [List.takeWhile_cons, hd] at h

theorem mucMatch_some_shape {l : List Char} {c : Char} {r : List Char}
    (h : mucMatch l = some (c, r)) :
    ∃ t, l = c :: ')' :: t ∧ isMucLetter c = true := by
  match l with
  | [] => simp [mucMatch] at h
  | [x] => simp [mucMatch] at h
  | x :: y :: t =>
    rw [mucMatch] at h
    split at h
    · next hcond =>
      simp only [Bool.and_eq_true, decide_eq_true_eq] at hcond
      obtain ⟨hy, hm⟩ := hcond
      obtain ⟨hc, hr⟩ := Prod.mk.injEq _ _ _ _ ▸ Option.some.inj h
      subst hy
      exact ⟨t, by rw [hc], by rw [← hc]; exact hm⟩
    · exact absurd h (by simp)

theorem khoanMatch_paren (c : Char) (t : List Char) : khoanMatch (c :: ')' :: t) = none := by
  by_cases hd : c.isDigit = true
  · have h1 : List.takeWhile Char.isDigit (')' :: t) = [] := rfl
    rw [khoanMatch]
    simp [List.takeWhile_cons, hd, h1]
  · rw [khoanMatch]
    simp [List.takeWhile_cons, hd]

def dieuOpen (s : ParseState) : Bool :=
  match s.cur with
  | some c => c.curDieu.isSome
  | none => false

def khoanOpen (s : ParseState) : Bool :=
  match s.cur with
  | some c =>
    match c.curDieu with
    | some d => d.curKhoan.isSome
    | none => false
  | none => false

def khoanCount (ns : List Node) : Nat :=
  (ns.map (fun n =>
    match n with
    | .chuong _ _ ds => (ds.map (fun d => d.khoan.length)).sum
    | .preamble _ => 0)).sum

def mucCount (ns : List Node) : Nat :=
  (ns.map (fun n =>
    match n with
    | .chuong _ _ ds => (ds.map (fun d => (d.khoan.map (fun k => k.muc.length)).sum)).sum
    | .preamble _ => 0)).sum

theorem stepPlain_khoanCount (s : ParseState) (line : String) :
    khoanCount (stepPlain s line).tree = khoanCount s.tree ∧
    mucCount (stepPlain s line).tree = mucCount s.tree := by
  rcases s with ⟨done, cur⟩
  rcases cur with _ | ⟨c⟩
  · simp [stepPlain, ParseState.tree, khoanCount, mucCount]
  rcases hc : c.curDieu with _ | ⟨d⟩
  · simp [stepPlain, hc, ParseState.tree, khoanCount, mucCount, OpenChuong.close]
  rcases hd : d.curKhoan with _ | ⟨k⟩
  · simp [stepPlain, hc, hd, ParseState.tree, khoanCount, mucCount, OpenChuong.close, OpenDieu.close]
  rcases hk : k.curMuc with _ | ⟨m⟩
  · simp [stepPlain, hc, hd, hk, ParseState.tree, khoanCount, mucCount,
      OpenChuong.close, OpenDieu.close, OpenKhoan.close]
  · simp [stepPlain, hc, hd, hk, ParseState.tree, khoanCount, mucCount,
      OpenChuong.close, OpenDieu.close, OpenKhoan.close]


theorem mucMatch_digit {c : Char} (h : c.isDigit = true) (t : List Char) :
    mucMatch (c :: t) = none := by
  match t with
  | [] => rfl
  | y :: t' =>
    rw [mucMatch]
    simp [isMucLetter_of_isDigit h]

theorem step_khoan_noArticle :
    ∀ (s : ParseState) (l n r : List Char), khoanMatch l = some (n, r) → dieuOpen s = false →
      step s l = stepPlain s ⟨l⟩ := by
  intro s l n r hk hd
  obtain ⟨c, t, hl, hdig⟩ := khoanMatch_some_head hk
  subst hl
  rcases s with ⟨done, cur⟩
  rcases cur with _ | ⟨cc⟩
  · simp only [step, chuongMatches_digit hdig, dieuMatch_digit hdig, hk, mucMatch_digit hdig,
      Bool.false_eq_true, if_false]
  · have hcd : cc.curDieu = none := by
      rcases hcd : cc.curDieu with _ | ⟨dd⟩
      · rfl
      · exfalso
        unfold dieuOpen at hd
        simp [hcd] at hd
    simp only [step, chuongMatches_digit hdig, dieuMatch_digit hdig, hk, mucMatch_digit hdig,
      hcd, Bool.false_eq_true, if_false]

theorem step_muc_noClause :
    ∀ (s : ParseState) (l : List Char) (c : Char) (r : List Char),
      mucMatch l = some (c, r) → khoanOpen s = false →
      step s l = stepPlain s ⟨l⟩ := by
  intro s l c r hm hko
  obtain ⟨t, hl, hml⟩ := mucMatch_some_shape hm
  subst hl
  have hch : chuongMatches (c :: ')' :: t) = false := by
    unfold chuongMatches
    rw [matchKeyword_second_none (show viLower ')' ≠ 'h' by decide)]
  have hdm : dieuMatch (c :: ')' :: t) = none := by
    unfold dieuMatch
    rw [matchKeyword_second_none (show viLower ')' ≠ 'i' by decide)]
  have hkm := khoanMatch_paren c t
  rcases s with ⟨done, cur⟩
  rcases cur with _ | ⟨cc⟩
  · simp only [step, hch, hdm, hkm, hm, Bool.false_eq_true, if_false]
  rcases hcd : cc.curDieu with _ | ⟨dd⟩
  · simp only [step, hch, hdm, hkm, hm, hcd, Bool.false_eq_true, if_false]
  · have hdk : dd.curKhoan = none := by
      rcases hdk : dd.curKhoan with _ | ⟨kk⟩
      · rfl
      · exfalso
        unfold khoanOpen at hko
        simp [hcd, hdk] at hko
    simp only [step, hch, hdm, hkm, hm, hcd, hdk, Bool.false_eq_true, if_false]

/-- C5: a line matching the clause pattern processed while no article is
open, and a line matching the point pattern processed while no clause is
open, are dispatched to the plain-content branch (`stepPlain`), which
never creates a clause or point node — it only extends content strings or
appends a preamble root, as the count-preservation conjunct records. -/
theorem C5_no_promotion :
    (∀ (s : ParseState) (l n r : List Char),
        khoanMatch l = some (n, r) → dieuOpen s = false →
        step s l = stepPlain s ⟨l⟩) ∧
    (∀ (s : ParseState) (l : List Char) (c : Char) (r : List Char),
        mucMatch l = some (c, r) → khoanOpen s = false →
        step s l = stepPlain s ⟨l⟩) ∧
    (∀ (s : ParseState) (line : String),
        khoanCount (stepPlain s line).tree = khoanCount s.tree ∧
        mucCount (stepPlain s line).tree = mucCount s.tree) :=
  ⟨step_khoan_noArticle, step_muc_noClause, stepPlain_khoanCount⟩

/-- C5, witness: concrete clause-pattern and point-pattern lines fed to the
initial state (no article, no clause open). -/
theorem C5_no_promotion_w :
    khoanMatch "1. hello".data = some ("1".data, "hello".data) ∧
    dieuOpen ⟨[], none⟩ = false ∧
    step ⟨[], none⟩ "1. hello".data = stepPlain ⟨[], none⟩ "1. hello" ∧
    mucMatch "a) x".data = some ('a', "x".data) ∧
    khoanOpen ⟨[], none⟩ = false ∧
    step ⟨[], none⟩ "a) x".data = stepPlain ⟨[], none⟩ "a) x" :=
  ⟨by decide, by decide,
   C5_no_promotion.1 ⟨[], none⟩ "1. hello".data "1".data "hello".data (by decide) (by decide),
   by decide, by decide,
   C5_no_promotion.2.1 ⟨[], none⟩ "a) x".data 'a' "x".data (by decide) (by decide)⟩

theorem splitNl_no_nl {l : List Char} (h : ('\n' ∈ l) → False) : splitNl l = [l] := by
  induction l with
  | nil => rfl
  | cons c cs ih =>
    have hc : c ≠ '\n' := fun he => h (he ▸ List.mem_cons_self c cs)
    have hcs : ('\n' ∈ cs) → False := fun hm => h (List.mem_cons_of_mem c hm)
    rw [splitNl, if_neg hc, ih hcs]

theorem dropWhile_append_keep {p : Char → Bool} {xs ys : List Char}
    (hx : xs.dropWhile p = xs) (hy : ys.dropWhile p = ys) :
    (xs ++ ys).dropWhile p = xs ++ ys := by
  cases xs with
  | nil => simpa using hy
  | cons c t =>
    have hpc : p c = false := by
      by_cases hp : p c = true
      · rw [List.dropWhile_cons, if_pos hp] at hx
        have h1 := congrArg List.length hx
        have h2 := (List.dropWhile_sublist p (l := t)).length_le
        simp at h1
        omega
      · simpa using hp
    rw [List.cons_append, List.dropWhile_cons, hpc]
    simp

theorem C7_article_trim_amended (r : String)
    (h1 : ('\n' ∈ r.data) → False)
    (h2 : r.data.reverse.dropWhile isSpaceC = r.data.reverse)
    (h3 : Option.all (fun c => !(c.isDigit || isDieuTrail c)) r.data.head? = true) :
    parse_text ("Điều 1" ++ r) =
      [Node.chuong "Chuong 0" none
        [⟨"Dieu 1", ⟨stripWhile isSpaceC (stripWhile (fun c => c = '.' || c = ' ') r.data)⟩, []⟩]] := by
  obtain ⟨rl⟩ := r
  simp only at h1 h2 h3
  have hdata : ("Điều 1" ++ String.mk rl).data = ['Đ', 'i', 'ề', 'u', ' ', '1'] ++ rl := by
    rw [String.data_append]
  have hmem : ('\n' ∈ ("Điều 1" ++ String.mk rl).data) → False := by
    rw [hdata]
    intro hm
    rcases List.mem_append.mp hm with hm | hm
    · simp at hm
    · exact h1 hm
  unfold parse_text
  rw [splitNl_no_nl hmem, hdata]
  have hstrip : stripWhile isSpaceC (['Đ', 'i', 'ề', 'u', ' ', '1'] ++ rl) =
      ['Đ', 'i', 'ề', 'u', ' ', '1'] ++ rl := by
    unfold stripWhile
    have hfront : (['Đ', 'i', 'ề', 'u', ' ', '1'] ++ rl).dropWhile isSpaceC =
        ['Đ', 'i', 'ề', 'u', ' ', '1'] ++ rl := by
      rw [List.cons_append, List.dropWhile_cons]
      simp only [show isSpaceC 'Đ' = false from rfl, Bool.false_eq_true, if_false,
        List.cons_append]
    rw [hfront, List.reverse_append]
    have hback : (rl.reverse ++ ['Đ', 'i', 'ề', 'u', ' ', '1'].reverse).dropWhile isSpaceC =
        rl.reverse ++ ['Đ', 'i', 'ề', 'u', ' ', '1'].reverse :=
      dropWhile_append_keep h2 rfl
    rw [hback, List.reverse_append, List.reverse_reverse, List.reverse_reverse]
  rw [parseLines, hstrip]
  have hne : (['Đ', 'i', 'ề', 'u', ' ', '1'] ++ rl).isEmpty = false := rfl
  rw [if_neg (by rw [hne]; exact Bool.false_ne_true)]
  rw [parseLines]
  have hch : chuongMatches (['Đ', 'i', 'ề', 'u', ' ', '1'] ++ rl) = false := by
    unfold chuongMatches
    rw [List.cons_append, matchKeyword_head_none (show viLower 'Đ' ≠ 'c' by decide)]
  have htw : rl.takeWhile Char.isDigit = [] := by
    cases rl with
    | nil => rfl
    | cons e tr =>
      simp only [Option.all, List.head?, Bool.not_eq_true', Bool.or_eq_false_iff] at h3
      rw [List.takeWhile_cons, if_neg]
      rw [h3.1]
      exact Bool.false_ne_true
  have hdieu : dieuMatch (['Đ', 'i', 'ề', 'u', ' ', '1'] ++ rl) = some (['1'], rl) := by
    have hkw : matchKeyword ['đ', 'i', 'ề', 'u'] (['Đ', 'i', 'ề', 'u', ' ', '1'] ++ rl) =
        some ([' ', '1'] ++ rl) := rfl
    unfold dieuMatch
    rw [hkw]
    simp only [List.cons_append, List.nil_append]
    rw [if_pos (show isSpaceC ' ' = true from rfl)]
    simp only [List.dropWhile_cons, show isSpaceC '1' = false from rfl, Bool.false_eq_true,
      if_false, List.takeWhile_cons, show Char.isDigit '1' = true from rfl, if_true, htw]
    simp only [show (['1'] : List Char).isEmpty = false from rfl, Bool.false_eq_true, if_false,
      List.length_cons, List.length_nil, List.drop_succ_cons, List.drop_zero]
    cases rl with
    | nil => rfl
    | cons e tr =>
      simp only [Option.all, List.head?, Bool.not_eq_true', Bool.or_eq_false_iff] at h3
      simp only [h3.2, Bool.false_eq_true, if_false]
  unfold step
  rw [hch]
  simp only [Bool.false_eq_true, if_false]
  rw [hdieu]
  unfold ParseState.tree OpenChuong.close OpenDieu.close
  simp [Option.toList, Option.map]

/-- Modelled from the spec: §4.1's description of the article inline
content — everything after the matched prefix with leading `.`/space
characters and trailing space characters trimmed (and nothing else
removed), for comparison with the code's `.strip(". ").strip()`. -/
def specArticleContent (rest : List Char) : List Char :=
  ((rest.dropWhile (fun c => c = '.' || c = ' ')).reverse.dropWhile (fun c => c = ' ')).reverse

/-- C7, counterexample: for the header line `"Điều 1. Phạm vi."` the code
stores content `"Phạm vi"` — the trailing period is removed by
`.strip(". ")` — while trimming only leading `.`/space and trailing spaces
would keep `"Phạm vi."`. -/
theorem C7_trailing_period_cex :
    parse_text "Điều 1. Phạm vi." =
      [Node.chuong "Chuong 0" none [⟨"Dieu 1", "Phạm vi", []⟩]] ∧
    String.mk (specArticleContent ". Phạm vi.".data) = "Phạm vi." ∧
    ("Phạm vi" : String) ≠ "Phạm vi." := by
  exact ⟨by decide, by decide, by decide⟩

/-- C7, witness for the amended theorem at the remainder `". Phạm vi."`. -/
theorem C7_article_trim_amended_w :
    (('\n' ∈ ". Phạm vi.".data) → False) ∧
    ". Phạm vi.".data.reverse.dropWhile isSpaceC = ". Phạm vi.".data.reverse ∧
    Option.all (fun c => !(c.isDigit || isDieuTrail c)) ". Phạm vi.".data.head? = true ∧
    parse_text ("Điều 1" ++ ". Phạm vi.") =
      [Node.chuong "Chuong 0" none
        [⟨"Dieu 1",
          ⟨stripWhile isSpaceC (stripWhile (fun c => c = '.' || c = ' ') ". Phạm vi.".data)⟩,
          []⟩]] := by
  exact ⟨by decide, by decide, by decide,
    C7_article_trim_amended ". Phạm vi." (by decide) (by decide) (by decide)⟩

def PreamblesFirst (ns : List Node) : Prop :=
  ∃ ps cs : List Node, ns = ps ++ cs ∧
    (∀ n ∈ ps, ∃ t, n = Node.preamble t) ∧
    (∀ n ∈ cs, ∃ a b c, n = Node.chuong a b c)

def DoneSplit (s : ParseState) : Prop :=
  ∃ ps cs : List Node, s.done = ps ++ cs ∧
    (∀ n ∈ ps, ∃ t, n = Node.preamble t) ∧
    (∀ n ∈ cs, ∃ a b c, n = Node.chuong a b c) ∧
    (s.cur = none → cs = [])

theorem stepPlain_cur_isSome (s : ParseState) (line : String) :
    ((stepPlain s line).cur).isSome = (s.cur).isSome := by
  rcases s with ⟨done, cur⟩
  rcases cur with _ | ⟨c⟩
  · simp [stepPlain]
  rcases hc : c.curDieu with _ | ⟨d⟩
  · simp [stepPlain, hc]
  rcases hd : d.curKhoan with _ | ⟨k⟩
  · simp [stepPlain, hc, hd]
  rcases hk : k.curMuc with _ | ⟨m⟩
  · simp [stepPlain, hc, hd, hk]
  · simp [stepPlain, hc, hd, hk]

theorem step_cur_isSome (s : ParseState) (l : List Char) (h : (s.cur).isSome = true) :
    (((step s l).cur)).isSome = true := by
  rcases s with ⟨done, cur⟩
  rcases cur with _ | ⟨c⟩
  · simp at h
  unfold step
  by_cases hch : chuongMatches l
  · simp [hch]
  rcases hdm : dieuMatch l with _ | ⟨num, rest⟩
  · rcases hkm : khoanMatch l with _ | ⟨num, rest⟩
    · rcases hmm : mucMatch l with _ | ⟨letter, rest⟩
      · simp [hch, hdm, hkm, hmm]
        rw [stepPlain_cur_isSome]; exact h
      · rcases hcd : c.curDieu with _ | ⟨d⟩
        · simp [hch, hdm, hkm, hmm, hcd]
          rw [stepPlain_cur_isSome]; exact h
        rcases hdk : d.curKhoan with _ | ⟨k⟩
        · simp [hch, hdm, hkm, hmm, hcd, hdk]
          rw [stepPlain_cur_isSome]; exact h
        · simp [hch, hdm, hkm, hmm, hcd, hdk]
    · rcases hcd : c.curDieu with _ | ⟨d⟩
      · rcases hmm : mucMatch l with _ | ⟨letter, rest⟩
        · simp [hch, hdm, hkm, hmm, hcd]
          rw [stepPlain_cur_isSome]; exact h
        · simp [hch, hdm, hkm, hmm, hcd]
          rw [stepPlain_cur_isSome]; exact h
      · simp [hch, hdm, hkm, hcd]
  · simp [hch, hdm]

theorem stepPlain_none (done : List Node) (line : String) :
    stepPlain ⟨done, none⟩ line = ⟨done ++ [Node.preamble line], none⟩ := by
  simp [stepPlain]

theorem stepPlain_some (done : List Node) (c : OpenChuong) (line : String) :
    ∃ c', stepPlain ⟨done, some c⟩ line = ⟨done, some c'⟩ := by
  rcases hc : c.curDieu with _ | ⟨d⟩
  · exact ⟨_, by simp [stepPlain, hc]; rfl⟩
  rcases hd : d.curKhoan with _ | ⟨k⟩
  · exact ⟨_, by simp [stepPlain, hc, hd]; rfl⟩
  rcases hk : k.curMuc with _ | ⟨m⟩
  · exact ⟨_, by simp [stepPlain, hc, hd, hk]; rfl⟩
  · exact ⟨_, by simp [stepPlain, hc, hd, hk]; rfl⟩

theorem step_plain_of_none (done : List Node) (l : List Char)
    (hch : chuongMatches l = false) (hdm : dieuMatch l = none) :
    step ⟨done, none⟩ l = stepPlain ⟨done, none⟩ ⟨l⟩ := by
  rcases hkm : khoanMatch l with _ | ⟨num, rest⟩ <;>
    rcases hmm : mucMatch l with _ | ⟨letter, rest2⟩ <;>
    simp [step, hch, hdm, hkm, hmm]

theorem step_some_notChuong (done : List Node) (c : OpenChuong) (l : List Char)
    (hch : chuongMatches l = false) :
    ∃ c', step ⟨done, some c⟩ l = ⟨done, some c'⟩ := by
  rcases hdm : dieuMatch l with _ | ⟨num, rest⟩
  · rcases hkm : khoanMatch l with _ | ⟨num, rest⟩
    · rcases hmm : mucMatch l with _ | ⟨letter, rest2⟩
      · have hs : step ⟨done, some c⟩ l = stepPlain ⟨done, some c⟩ ⟨l⟩ := by
          simp [step, hch, hdm, hkm, hmm]
        rw [hs]
        exact stepPlain_some done c ⟨l⟩
      · rcases hcd : c.curDieu with _ | ⟨d⟩
        · have hs : step ⟨done, some c⟩ l = stepPlain ⟨done, some c⟩ ⟨l⟩ := by
            simp [step, hch, hdm, hkm, hmm, hcd]
          rw [hs]
          exact stepPlain_some done c ⟨l⟩
        rcases hdk : d.curKhoan with _ | ⟨k⟩
        · have hs : step ⟨done, some c⟩ l = stepPlain ⟨done, some c⟩ ⟨l⟩ := by
            simp [step, hch, hdm, hkm, hmm, hcd, hdk]
          rw [hs]
          exact stepPlain_some done c ⟨l⟩
        · exact ⟨_, by simp [step, hch, hdm, hkm, hmm, hcd, hdk]; rfl⟩
    · rcases hcd : c.curDieu with _ | ⟨d⟩
      · rcases hmm : mucMatch l with _ | ⟨letter, rest2⟩
        · have hs : step ⟨done, some c⟩ l = stepPlain ⟨done, some c⟩ ⟨l⟩ := by
            simp [step, hch, hdm, hkm, hmm, hcd]
          rw [hs]
          exact stepPlain_some done c ⟨l⟩
        · have hs : step ⟨done, some c⟩ l = stepPlain ⟨done, some c⟩ ⟨l⟩ := by
            simp [step, hch, hdm, hkm, hmm, hcd]
          rw [hs]
          exact stepPlain_some done c ⟨l⟩
      · exact ⟨_, by simp [step, hch, hdm, hkm, hcd]; rfl⟩
  · exact ⟨_, by simp [step, hch, hdm]; rfl⟩

theorem step_DoneSplit (s : ParseState) (l : List Char) (h : DoneSplit s) :
    DoneSplit (step s l) := by
  obtain ⟨ps, cs, hdone, hps, hcs, hnone⟩ := h
  rcases s with ⟨done, cur⟩
  simp only at hdone hnone
  rcases cur with _ | ⟨c⟩
  · have hcs0 : cs = [] := hnone rfl
    subst hcs0
    rw [List.append_nil] at hdone
    by_cases hch : chuongMatches l
    · refine ⟨ps, [], ?_, hps, by simp, ?_⟩
      · simp [step, hch, hdone]
      · intro hcur
        simp [step, hch] at hcur
    rcases hdm : dieuMatch l with _ | ⟨num, rest⟩
    · rw [step_plain_of_none done l (by simpa using hch) hdm, stepPlain_none]
      refine ⟨ps ++ [Node.preamble ⟨l⟩], [], by simp [hdone], ?_, by simp, fun _ => rfl⟩
      intro n hn
      rcases List.mem_append.mp hn with hn | hn
      · exact hps n hn
      · simp at hn
        exact ⟨_, hn⟩
    · refine ⟨ps, [], ?_, hps, by simp, ?_⟩
      · simp [step, hch, hdm, hdone]
      · intro hcur
        simp [step, hch, hdm] at hcur
  · by_cases hch : chuongMatches l
    · refine ⟨ps, cs ++ [c.close], ?_, hps, ?_, ?_⟩
      · simp [step, hch, hdone, Option.toList, List.append_assoc]
      · intro n hn
        rcases List.mem_append.mp hn with hn | hn
        · exact hcs n hn
        · simp at hn
          subst hn
          exact ⟨c.title, c.content, _, rfl⟩
      · intro hcur
        simp [step, hch] at hcur
    · obtain ⟨c', hc'⟩ := step_some_notChuong done c l (by simpa using hch)
      rw [hc']
      exact ⟨ps, cs, hdone, hps, hcs, by simp⟩

theorem parseLines_DoneSplit (ls : List (List Char)) (s : ParseState) (h : DoneSplit s) :
    DoneSplit (parseLines s ls) := by
  induction ls generalizing s with
  | nil => exact h
  | cons l ls ih =>
    rw [parseLines]
    by_cases he : (stripWhile isSpaceC l).isEmpty = true
    · rw [if_pos he]
      exact ih s h
    · rw [if_neg he]
      exact ih _ (step_DoneSplit s _ h)

theorem parse_text_PreamblesFirst (text : String) : PreamblesFirst (parse_text text) := by
  have h := parseLines_DoneSplit (splitNl text.data) ⟨[], none⟩
    ⟨[], [], rfl, by simp, by simp, fun _ => rfl⟩
  obtain ⟨ps, cs, hdone, hps, hcs, hnone⟩ := h
  unfold parse_text ParseState.tree
  rcases hcur : (parseLines ⟨[], none⟩ (splitNl text.data)).cur with _ | ⟨c⟩
  · have hcs0 : cs = [] := hnone hcur
    subst hcs0
    rw [List.append_nil] at hdone
    rw [hdone]
    exact ⟨ps, [], by simp, hps, by simp⟩
  · rw [hdone]
    refine ⟨ps, cs ++ [c.close], ?_, hps, ?_⟩
    · simp [List.append_assoc, Option.toList]
    · intro n hn
      rcases List.mem_append.mp hn with hn | hn
      · exact hcs n hn
      · simp at hn
        subst hn
        exact ⟨c.title, c.content, _, rfl⟩

/-- C10: the open-chapter reference, once set, is never cleared by any
line, and in every parsed hierarchy all Preamble roots precede all
Chapter roots. -/
theorem C10_preambles_precede :
    (∀ (s : ParseState) (l : List Char),
        (s.cur).isSome = true → ((step s l).cur).isSome = true) ∧
    (∀ text : String, PreamblesFirst (parse_text text)) :=
  ⟨step_cur_isSome, parse_text_PreamblesFirst⟩

/-- C10, witness: a state with an open chapter stays open across a plain
line, and a concrete mixed document parses preambles-first. -/
theorem C10_preambles_precede_w :
    ((ParseState.mk [] (some ⟨"Chương I", none, [], none⟩)).cur).isSome = true ∧
    ((step ⟨[], some ⟨"Chương I", none, [], none⟩⟩ "x".data).cur).isSome = true ∧
    PreamblesFirst (parse_text "mở đầu\nChương I\nĐiều 1. A") :=
  ⟨by decide,
   C10_preambles_precede.1 ⟨[], some ⟨"Chương I", none, [], none⟩⟩ "x".data (by decide),
   C10_preambles_precede.2 "mở đầu\nChương I\nĐiều 1. A"⟩

inductive ListExt (R : α → α → Prop) : List α → List α → Prop
  | nil (ys : List α) : ListExt R [] ys
  | cons {x y : α} {xs ys : List α} : R x y → ListExt R xs ys → ListExt R (x :: xs) (y :: ys)

def StrExt (a b : String) : Prop := a.data <+: b.data

def OptStrExt : Option String → Option String → Prop
  | none, _ => True
  | some a, some b => StrExt a b
  | some _, none => False

def MucExt (m m' : Muc) : Prop := m.muc = m'.muc ∧ StrExt m.content m'.content

def KhoanExt (k k' : Khoan) : Prop :=
  k.khoan = k'.khoan ∧ StrExt k.content k'.content ∧ ListExt MucExt k.muc k'.muc

def DieuExt (d d' : Dieu) : Prop :=
  d.dieu = d'.dieu ∧ StrExt d.content d'.content ∧ ListExt KhoanExt d.khoan d'.khoan

def NodeExt : Node → Node → Prop
  | .preamble t, .preamble t' => t = t'
  | .chuong a b c, .chuong a' b' c' => a = a' ∧ OptStrExt b b' ∧ ListExt DieuExt c c'
  | .preamble _, .chuong _ _ _ => False
  | .chuong _ _ _, .preamble _ => False

def TreeExt (ns ns' : List Node) : Prop := ListExt NodeExt ns ns'

theorem strExt_refl (a : String) : StrExt a a := List.prefix_refl _

theorem strExt_push (a b : String) : StrExt a (a ++ b) := by
  unfold StrExt
  rw [String.data_append]
  exact List.prefix_append _ _

theorem strExt_trans {a b c : String} (h1 : StrExt a b) (h2 : StrExt b c) : StrExt a c :=
  List.IsPrefix.trans h1 h2

theorem optStrExt_refl (a : Option String) : OptStrExt a a := by
  cases a
  · trivial
  · exact strExt_refl _

theorem optStrExt_trans {a b c : Option String} (h1 : OptStrExt a b) (h2 : OptStrExt b c) :
    OptStrExt a c := by
  cases a <;> cases b <;> cases c <;> first
    | trivial
    | exact strExt_trans h1 h2

theorem listExt_refl {R : α → α → Prop} (hR : ∀ a, R a a) : ∀ xs, ListExt R xs xs
  | [] => .nil []
  | x :: xs => .cons (hR x) (listExt_refl hR xs)

theorem listExt_push {R : α → α → Prop} (hR : ∀ a, R a a) (xs ys : List α) :
    ListExt R xs (xs ++ ys) := by
  induction xs with
  | nil => exact .nil ys
  | cons x xs ih => exact .cons (hR x) ih

theorem listExt_snoc {R : α → α → Prop} (hR : ∀ a, R a a) {a b : α}
    (hab : R a b) (xs : List α) : ListExt R (xs ++ [a]) (xs ++ [b]) := by
  induction xs with
  | nil => exact .cons hab (.nil [])
  | cons x xs ih => exact .cons (hR x) ih

theorem listExt_trans {R : α → α → Prop}
    (hR : ∀ a b c : α, R a b → R b c → R a c) :
    ∀ {xs ys zs : List α}, ListExt R xs ys → ListExt R ys zs → ListExt R xs zs := by
  intro xs ys zs h1 h2
  induction h1 generalizing zs with
  | nil => exact .nil zs
  | cons hxy hext ih =>
    cases h2 with
    | cons hyz h2' => exact .cons (hR _ _ _ hxy hyz) (ih h2')

theorem mucExt_refl (m : Muc) : MucExt m m := ⟨rfl, strExt_refl _⟩

theorem mucExt_trans (a b c : Muc) (h1 : MucExt a b) (h2 : MucExt b c) : MucExt a c :=
  ⟨h1.1.trans h2.1, strExt_trans h1.2 h2.2⟩

theorem khoanExt_refl (k : Khoan) : KhoanExt k k :=
  ⟨rfl, strExt_refl _, listExt_refl mucExt_refl _⟩

theorem khoanExt_trans (a b c : Khoan) (h1 : KhoanExt a b) (h2 : KhoanExt b c) : KhoanExt a c :=
  ⟨h1.1.trans h2.1, strExt_trans h1.2.1 h2.2.1, listExt_trans mucExt_trans h1.2.2 h2.2.2⟩

theorem dieuExt_refl (d : Dieu) : DieuExt d d :=
  ⟨rfl, strExt_refl _, listExt_refl khoanExt_refl _⟩

theorem dieuExt_trans (a b c : Dieu) (h1 : DieuExt a b) (h2 : DieuExt b c) : DieuExt a c :=
  ⟨h1.1.trans h2.1, strExt_trans h1.2.1 h2.2.1, listExt_trans khoanExt_trans h1.2.2 h2.2.2⟩

theorem nodeExt_refl (n : Node) : NodeExt n n := by
  cases n
  · exact ⟨rfl, optStrExt_refl _, listExt_refl dieuExt_refl _⟩
  · rfl

theorem nodeExt_trans (a b c : Node) (h1 : NodeExt a b) (h2 : NodeExt b c) : NodeExt a c := by
  cases a <;> cases b <;> cases c <;>
    first
      | exact False.elim h1
      | exact False.elim h2
      | exact ⟨h1.1.trans h2.1, optStrExt_trans h1.2.1 h2.2.1,
          listExt_trans dieuExt_trans h1.2.2 h2.2.2⟩
      | exact Eq.trans h1 h2

theorem treeExt_refl (ns : List Node) : TreeExt ns ns := listExt_refl nodeExt_refl ns

theorem treeExt_trans {a b c : List Node} (h1 : TreeExt a b) (h2 : TreeExt b c) : TreeExt a c :=
  listExt_trans nodeExt_trans h1 h2

theorem strExt_push2 (a b c : String) : StrExt a (a ++ b ++ c) :=
  strExt_trans (strExt_push a b) (strExt_push (a ++ b) c)

theorem optStrExt_push (o : Option String) (line : String) :
    OptStrExt o (some ((o.getD "") ++ " " ++ line)) := by
  cases o
  · trivial
  · exact strExt_push2 _ " " line

theorem stepPlain_TreeExt (s : ParseState) (line : String) :
    TreeExt s.tree (stepPlain s line).tree := by
  rcases s with ⟨done, cur⟩
  rcases cur with _ | ⟨c⟩
  · simp only [stepPlain, ParseState.tree, Option.map_none', Option.toList_none, List.append_nil]
    exact listExt_push nodeExt_refl done [Node.preamble line]
  rcases hc : c.curDieu with _ | ⟨d⟩
  · simp only [stepPlain, hc, ParseState.tree, Option.map_some', Option.toList_some,
      OpenChuong.close]
    refine listExt_snoc nodeExt_refl ?_ done
    exact ⟨rfl, optStrExt_push c.content line, listExt_refl dieuExt_refl _⟩
  rcases hd : d.curKhoan with _ | ⟨k⟩
  · simp only [stepPlain, hc, hd, ParseState.tree, Option.map_some', Option.toList_some,
      OpenChuong.close, OpenDieu.close]
    refine listExt_snoc nodeExt_refl ?_ done
    refine ⟨rfl, optStrExt_refl _, ?_⟩
    refine listExt_snoc dieuExt_refl ?_ c.doneDieu
    exact ⟨rfl, strExt_push2 d.content " " line, listExt_refl khoanExt_refl _⟩
  rcases hk : k.curMuc with _ | ⟨m⟩
  · simp only [stepPlain, hc, hd, hk, ParseState.tree, Option.map_some', Option.toList_some,
      OpenChuong.close, OpenDieu.close, OpenKhoan.close]
    refine listExt_snoc nodeExt_refl ?_ done
    refine ⟨rfl, optStrExt_refl _, ?_⟩
    refine listExt_snoc dieuExt_refl ?_ c.doneDieu
    refine ⟨rfl, strExt_refl _, ?_⟩
    refine listExt_snoc khoanExt_refl ?_ d.doneKhoan
    exact ⟨rfl, strExt_push2 k.content " " line, listExt_refl mucExt_refl _⟩
  · simp only [stepPlain, hc, hd, hk, ParseState.tree, Option.map_some', Option.toList_some,
      OpenChuong.close, OpenDieu.close, OpenKhoan.close]
    refine listExt_snoc nodeExt_refl ?_ done
    refine ⟨rfl, optStrExt_refl _, ?_⟩
    refine listExt_snoc dieuExt_refl ?_ c.doneDieu
    refine ⟨rfl, strExt_refl _, ?_⟩
    refine listExt_snoc khoanExt_refl ?_ d.doneKhoan
    refine ⟨rfl, strExt_refl _, ?_⟩
    refine listExt_snoc mucExt_refl ?_ k.doneMuc
    exact ⟨rfl, strExt_push2 m.content " " line⟩

theorem step_TreeExt (s : ParseState) (l : List Char) : TreeExt s.tree (step s l).tree := by
  rcases s with ⟨done, cur⟩
  by_cases hch : chuongMatches l = true
  · simp only [step, hch, if_true, ParseState.tree, Option.map_some', Option.toList_some,
      OpenChuong.close]
    exact listExt_push nodeExt_refl _ _
  replace hch : chuongMatches l = false := by simpa using hch
  rcases cur with _ | ⟨c⟩
  · rcases hdm : dieuMatch l with _ | ⟨num, rest⟩
    · rw [step_plain_of_none done l hch hdm]
      exact stepPlain_TreeExt _ _
    · simp only [step, hch, Bool.false_eq_true, if_false, hdm, ParseState.tree,
        Option.map_none', Option.toList_none, Option.map_some', Option.toList_some,
        OpenChuong.close, List.append_nil]
      exact listExt_push nodeExt_refl done _
  · rcases hdm : dieuMatch l with _ | ⟨num, rest⟩
    · rcases hkm : khoanMatch l with _ | ⟨num, rest⟩
      · rcases hmm : mucMatch l with _ | ⟨letter, rest2⟩
        · have hs : step ⟨done, some c⟩ l = stepPlain ⟨done, some c⟩ ⟨l⟩ := by
            simp [step, hch, hdm, hkm, hmm]
          rw [hs]
          exact stepPlain_TreeExt _ _
        · rcases hcd : c.curDieu with _ | ⟨d⟩
          · have hs : step ⟨done, some c⟩ l = stepPlain ⟨done, some c⟩ ⟨l⟩ := by
              simp [step, hch, hdm, hkm, hmm, hcd]
            rw [hs]
            exact stepPlain_TreeExt _ _
          rcases hdk : d.curKhoan with _ | ⟨k⟩
          · have hs : step ⟨done, some c⟩ l = stepPlain ⟨done, some c⟩ ⟨l⟩ := by
              simp [step, hch, hdm, hkm, hmm, hcd, hdk]
            rw [hs]
            exact stepPlain_TreeExt _ _
          · simp only [step, hch, Bool.false_eq_true, if_false, hdm, hkm, hmm, hcd, hdk,
              ParseState.tree, Option.map_some', Option.toList_some,
              OpenChuong.close, OpenDieu.close, OpenKhoan.close]
            refine listExt_snoc nodeExt_refl ?_ done
            refine ⟨rfl, optStrExt_refl _, ?_⟩
            refine listExt_snoc dieuExt_refl ?_ c.doneDieu
            refine ⟨rfl, strExt_refl _, ?_⟩
            refine listExt_snoc khoanExt_refl ?_ d.doneKhoan
            refine ⟨rfl, strExt_refl _, ?_⟩
            exact listExt_push mucExt_refl _ _
      · rcases hcd : c.curDieu with _ | ⟨d⟩
        · rcases hmm : mucMatch l with _ | ⟨letter, rest2⟩
          · have hs : step ⟨done, some c⟩ l = stepPlain ⟨done, some c⟩ ⟨l⟩ := by
              simp [step, hch, hdm, hkm, hmm, hcd]
            rw [hs]
            exact stepPlain_TreeExt _ _
          · have hs : step ⟨done, some c⟩ l = stepPlain ⟨done, some c⟩ ⟨l⟩ := by
              simp [step, hch, hdm, hkm, hmm, hcd]
            rw [hs]
            exact stepPlain_TreeExt _ _
        · simp only [step, hch, Bool.false_eq_true, if_false, hdm, hkm, hcd, ParseState.tree,
            Option.map_some', Option.toList_some, OpenChuong.close, OpenDieu.close]
          refine listExt_snoc nodeExt_refl ?_ done
          refine ⟨rfl, optStrExt_refl _, ?_⟩
          refine listExt_snoc dieuExt_refl ?_ c.doneDieu
          refine ⟨rfl, strExt_refl _, ?_⟩
          exact listExt_push khoanExt_refl _ _
    · simp only [step, hch, Bool.false_eq_true, if_false, hdm, ParseState.tree,
        Option.map_some', Option.toList_some, OpenChuong.close]
      refine listExt_snoc nodeExt_refl ?_ done
      refine ⟨rfl, optStrExt_refl _, ?_⟩
      exact listExt_push dieuExt_refl _ _

theorem parseLines_TreeExt (ls : List (List Char)) (s : ParseState) :
    TreeExt s.tree (parseLines s ls).tree := by
  induction ls generalizing s with
  | nil => exact treeExt_refl _
  | cons l ls ih =>
    rw [parseLines]
    by_cases he : (stripWhile isSpaceC l).isEmpty = true
    · rw [if_pos he]
      exact ih s
    · rw [if_neg he]
      exact treeExt_trans (step_TreeExt s _) (ih _)

theorem parseLines_append (s : ParseState) (l1 l2 : List (List Char)) :
    parseLines s (l1 ++ l2) = parseLines (parseLines s l1) l2 := by
  induction l1 generalizing s with
  | nil => rfl
  | cons l ls ih =>
    rw [List.cons_append, parseLines, parseLines]
    by_cases he : (stripWhile isSpaceC l).isEmpty = true
    · rw [if_pos he, if_pos he, ih]
    · rw [if_neg he, if_neg he, ih]

theorem splitNl_ne_nil (l : List Char) : splitNl l ≠ [] := by
  induction l with
  | nil => simp [splitNl]
  | cons c cs ih =>
    rw [splitNl]
    by_cases hc : c = '\n'
    · simp [hc]
    · rw [if_neg hc]
      rcases h : splitNl cs with _ | ⟨h1, t⟩
      · exact absurd h ih
      · simp

theorem splitNl_append (a b : List Char) :
    splitNl (a ++ '\n' :: b) = splitNl a ++ splitNl b := by
  induction a with
  | nil =>
    rw [List.nil_append]
    simp [splitNl]
  | cons c cs ih =>
    rw [List.cons_append, splitNl, splitNl]
    by_cases hc : c = '\n'
    · rw [if_pos hc, if_pos hc, ih]
      rfl
    · rw [if_neg hc, if_neg hc, ih]
      rcases h : splitNl cs with _ | ⟨h1, t⟩
      · exact absurd h (splitNl_ne_nil cs)
      · simp

theorem parse_text_TreeExt (t1 t2 : String) :
    TreeExt (parse_text t1) (parse_text (t1 ++ "\n" ++ t2)) := by
  unfold parse_text
  have hd : (t1 ++ "\n" ++ t2).data = t1.data ++ '\n' :: t2.data := by
    rw [String.data_append, String.data_append]
    simp
  rw [hd, splitNl_append, parseLines_append]
  exact parseLines_TreeExt _ _

/-- C9: parsing only ever grows the tree at the ends of its ordered
sequences — every loop step extends the current tree (root/article/clause/
point labels preserved, content strings extended on the right, child lists
extended at the tail only), so everything parsed from an initial segment
of the input keeps its position and relative order when further input
lines follow: nodes are never reordered, removed or deduplicated. -/
theorem C9_order_preservation :
    (∀ (s : ParseState) (l : List Char), TreeExt s.tree (step s l).tree) ∧
    (∀ t1 t2 : String, TreeExt (parse_text t1) (parse_text (t1 ++ "\n" ++ t2))) :=
  ⟨step_TreeExt, parse_text_TreeExt⟩

theorem optOrElse_some {α : Type} {o : Option α} {f : Unit → Option α} {r : α}
    (h : o.orElse f = some r) : o = some r ∨ (o = none ∧ f () = some r) := by
  cases o
  · exact Or.inr ⟨rfl, h⟩
  · exact Or.inl h

theorem matchToksF_length_le :
    ∀ (f : Nat) (ts : List Tok) (s r : List Char),
      matchToksF f ts s = some r → r.length ≤ s.length := by
  intro f
  induction f with
  | zero =>
    intro ts s r h
    exact Option.noConfusion h
  | succ g ih =>
    intro ts s r h
    rcases ts with _ | ⟨t, ts'⟩
    · simp only [matchToksF, Option.some.injEq] at h
      exact h ▸ Nat.le_refl _
    rcases t with a | p | p | p | p | p | p | ⟨a, as⟩ | _
    · -- lit
      rcases s with _ | ⟨c, s'⟩
      · exact Option.noConfusion h
      · simp only [matchToksF] at h
        split at h
        · have := ih _ _ _ h
          simp only [List.length_cons]
          omega
        · exact Option.noConfusion h
    · -- one
      rcases s with _ | ⟨c, s'⟩
      · exact Option.noConfusion h
      · simp only [matchToksF] at h
        split at h
        · have := ih _ _ _ h
          simp only [List.length_cons]
          omega
        · exact Option.noConfusion h
    · -- optC
      rcases s with _ | ⟨c, s'⟩
      · simp only [matchToksF] at h
        exact ih _ _ _ h
      · simp only [matchToksF] at h
        split at h
        · rcases optOrElse_some h with h | ⟨-, h⟩
          · have := ih _ _ _ h
            simp only [List.length_cons]
            omega
          · exact ih _ _ _ h
        · exact ih _ _ _ h
    · -- plusG
      rcases s with _ | ⟨c, s'⟩
      · exact Option.noConfusion h
      · simp only [matchToksF] at h
        split at h
        · have := ih _ _ _ h
          simp only [List.length_cons]
          omega
        · exact Option.noConfusion h
    · -- starG
      rcases s with _ | ⟨c, s'⟩
      · simp only [matchToksF] at h
        exact ih _ _ _ h
      · simp only [matchToksF] at h
        split at h
        · rcases optOrElse_some h with h | ⟨-, h⟩
          · have := ih _ _ _ h
            simp only [List.length_cons]
            omega
          · exact ih _ _ _ h
        · exact ih _ _ _ h
    · -- plusL
      rcases s with _ | ⟨c, s'⟩
      · exact Option.noConfusion h
      · simp only [matchToksF] at h
        split at h
        · have := ih _ _ _ h
          simp only [List.length_cons]
          omega
        · exact Option.noConfusion h
    · -- starL
      rcases s with _ | ⟨c, s'⟩
      · simp only [matchToksF] at h
        exact ih _ _ _ h
      · simp only [matchToksF] at h
        rcases optOrElse_some h with h | ⟨-, h⟩
        · exact ih _ _ _ h
        · split at h
          · have := ih _ _ _ h
            simp only [List.length_cons]
            omega
          · exact Option.noConfusion h
    · -- optStr
      simp only [matchToksF] at h
      split at h
      · rcases optOrElse_some h with h | ⟨-, h⟩
        · have := ih _ _ _ h
          simp only [List.length_drop] at this
          omega
        · exact ih _ _ _ h
      · exact ih _ _ _ h
    · -- eol
      simp only [matchToksF] at h
      split at h
      · exact ih _ _ _ h
      · exact Option.noConfusion h

theorem matchAt_lit_lt {a : Char} {ts : List Tok} {s r : List Char}
    (h : matchAt (Tok.lit a :: ts) s = some r) : r.length < s.length := by
  unfold matchAt at h
  simp only [List.length_cons] at h
  rcases s with _ | ⟨c, s'⟩
  · simp only [matchToksF] at h
    exact Option.noConfusion h
  · simp only [matchToksF] at h
    split at h
    · have := matchToksF_length_le _ _ _ _ h
      simp only [List.length_cons]
      omega
    · exact Option.noConfusion h

theorem matchToksF_eol_shape :
    ∀ (f : Nat) (ts : List Tok) (s r : List Char),
      matchToksF f (ts ++ [Tok.eol]) s = some r → r = [] ∨ r = ['\n'] := by
  intro f
  induction f with
  | zero =>
    intro ts s r h
    exact Option.noConfusion h
  | succ g ih =>
    intro ts s r h
    rcases ts with _ | ⟨t, ts'⟩
    · simp only [List.nil_append, matchToksF] at h
      split at h
      · next hg =>
        rcases g with _ | g'
        · exact Option.noConfusion h
        · simp only [matchToksF, Option.some.injEq] at h
          subst h
          exact hg
      · exact Option.noConfusion h
    simp only [List.cons_append] at h
    rcases t with a | p | p | p | p | p | p | ⟨a, as⟩ | _
    · -- lit
      rcases s with _ | ⟨c, s'⟩
      · exact Option.noConfusion h
      · simp only [matchToksF] at h
        split at h
        · exact ih _ _ _ h
        · exact Option.noConfusion h
    · -- one
      rcases s with _ | ⟨c, s'⟩
      · exact Option.noConfusion h
      · simp only [matchToksF] at h
        split at h
        · exact ih _ _ _ h
        · exact Option.noConfusion h
    · -- optC
      rcases s with _ | ⟨c, s'⟩
      · simp only [matchToksF] at h
        exact ih _ _ _ h
      · simp only [matchToksF] at h
        split at h
        · rcases optOrElse_some h with h | ⟨-, h⟩
          · exact ih _ _ _ h
          · exact ih _ _ _ h
        · exact ih _ _ _ h
    · -- plusG
      rcases s with _ | ⟨c, s'⟩
      · exact Option.noConfusion h
      · simp only [matchToksF] at h
        split at h
        · rw [← List.cons_append] at h
          exact ih _ _ _ h
        · exact Option.noConfusion h
    · -- starG
      rcases s with _ | ⟨c, s'⟩
      · simp only [matchToksF] at h
        exact ih _ _ _ h
      · simp only [matchToksF] at h
        split at h
        · rcases optOrElse_some h with h | ⟨-, h⟩
          · rw [← List.cons_append] at h
            exact ih _ _ _ h
          · exact ih _ _ _ h
        · exact ih _ _ _ h
    · -- plusL
      rcases s with _ | ⟨c, s'⟩
      · exact Option.noConfusion h
      · simp only [matchToksF] at h
        split at h
        · rw [← List.cons_append] at h
          exact ih _ _ _ h
        · exact Option.noConfusion h
    · -- starL
      rcases s with _ | ⟨c, s'⟩
      · simp only [matchToksF] at h
        exact ih _ _ _ h
      · simp only [matchToksF] at h
        rcases optOrElse_some h with h | ⟨-, h⟩
        · exact ih _ _ _ h
        · split at h
          · rw [← List.cons_append] at h
            exact ih _ _ _ h
          · exact Option.noConfusion h
    · -- optStr
      simp only [matchToksF] at h
      split at h
      · rcases optOrElse_some h with h | ⟨-, h⟩
        · exact ih _ _ _ h
        · exact ih _ _ _ h
      · exact ih _ _ _ h
    · -- eol mid-pattern
      simp only [matchToksF] at h
      split at h
      · exact ih _ _ _ h
      · exact Option.noConfusion h

theorem subToksF_fuel_irrel (ts : List Tok) :
    ∀ (f1 : Nat) (s : List Char) (f2 : Nat), s.length ≤ f1 → s.length ≤ f2 →
      subToksF ts f1 s = subToksF ts f2 s := by
  intro f1
  induction f1 with
  | zero =>
    intro s f2 h1 h2
    have hs : s = [] := List.length_eq_zero.mp (Nat.le_zero.mp h1)
    subst hs
    rcases f2 with _ | g2
    · rfl
    · rfl
  | succ g ih =>
    intro s f2 h1 h2
    rcases s with _ | ⟨c, s'⟩
    · rcases f2 with _ | g2
      · rfl
      · rfl
    · rcases f2 with _ | g2
      · simp only [List.length_cons] at h2
        omega
      · simp only [List.length_cons] at h1 h2
        rcases hm : matchAt ts (c :: s') with _ | r
        · simp only [subToksF, hm]
          rw [ih s' g2 (by omega) (by omega)]
        · simp only [subToksF, hm]
          by_cases hrl : r.length ≤ s'.length
          · rw [if_pos hrl, if_pos hrl, ih r g2 (by omega) (by omega)]
          · rw [if_neg hrl, if_neg hrl, ih s' g2 (by omega) (by omega)]

theorem subToksF_no_match (ts : List Tok) :
    ∀ (f : Nat) (s : List Char),
      (∀ u2 ∈ s.tails, matchAt ts u2 = none) → subToksF ts f s = s := by
  intro f
  induction f with
  | zero => intro s _; rfl
  | succ g ih =>
    intro s hno
    rcases s with _ | ⟨c, s'⟩
    · rfl
    · simp only [subToksF]
      have h0 : matchAt ts (c :: s') = none :=
        hno (c :: s') (List.mem_tails _ _ |>.mpr (List.suffix_refl _))
      rw [h0, ih s' (fun u2 hu => hno u2 ?_)]
      rw [List.mem_tails] at hu ⊢
      exact hu.trans (List.suffix_cons c s')

theorem subToks_no_match (ts : List Tok) (s : List Char)
    (hno : ∀ u2 ∈ s.tails, matchAt ts u2 = none) : subToks ts s = s :=
  subToksF_no_match ts s.length s hno

theorem subToks_first_match (ts : List Tok) :
    ∀ (u v r : List Char), matchAt ts v = some r → r.length < v.length →
      (∀ u2 ∈ u.tails, u2 ≠ [] → matchAt ts (u2 ++ v) = none) →
      subToks ts (u ++ v) = u ++ subToks ts r := by
  intro u
  induction u with
  | nil =>
    intro v r hm hlt _
    simp only [List.nil_append]
    rcases v with _ | ⟨c, v'⟩
    · simp at hlt
    · show subToksF ts (c :: v').length (c :: v') = subToks ts r
      simp only [List.length_cons, subToksF, hm]
      simp only [List.length_cons] at hlt
      rw [if_pos (by omega)]
      exact subToksF_fuel_irrel ts v'.length r r.length (by omega) (Nat.le_refl _)
  | cons c u' ih =>
    intro v r hm hlt hfirst
    have h0 : matchAt ts ((c :: u') ++ v) = none :=
      hfirst (c :: u') (List.mem_tails _ _ |>.mpr (List.suffix_refl _)) (by simp)
    show subToksF ts ((c :: u') ++ v).length ((c :: u') ++ v) = (c :: u') ++ subToks ts r
    simp only [List.cons_append, List.length_cons] at h0 ⊢
    simp only [subToksF, h0]
    rw [show subToksF ts (u' ++ v).length (u' ++ v) = subToks ts (u' ++ v) from rfl]
    rw [ih v r hm hlt (fun u2 hu hne => hfirst u2 ?_ hne)]
    rw [List.mem_tails] at hu ⊢
    exact hu.trans (List.suffix_cons c u')

/-- Rule 1 of the post-processing: the guarded sub-heading substitution. -/
def mucRule (content : String) : String :=
  if searchToks mucMarkSearch content.data then ⟨subToks mucMarkSub content.data⟩
  else content

/-- Rule 2 of the post-processing: the guarded enactment-boilerplate
substitution. -/
def luatRule (content : String) : String :=
  if searchToks luatSearch content.data then ⟨subToks luatSub content.data⟩
  else content

theorem post_process_rules (t : String) : post_process t = luatRule (mucRule t) := rfl

theorem matchAt_mucSub_eol {v r : List Char} (h : matchAt mucMarkSub v = some r) :
    r = [] ∨ r = ['\n'] := by
  have hv : mucMarkSub = (mucMarkSearch ++ [Tok.plusL (fun c => c ≠ '\n')]) ++ [Tok.eol] := rfl
  rw [hv] at h
  unfold matchAt at h
  exact matchToksF_eol_shape _ _ _ _ h

theorem matchAt_mucSub_lt {v r : List Char} (h : matchAt mucMarkSub v = some r) :
    r.length < v.length := by
  rw [show mucMarkSub = Tok.lit 'M' :: mucMarkSub.tail from rfl] at h
  exact matchAt_lit_lt h

theorem subToks_mucSub_cut (u v r : List Char)
    (hm : matchAt mucMarkSub v = some r)
    (hfirst : ∀ u2 ∈ u.tails, u2 ≠ [] → matchAt mucMarkSub (u2 ++ v) = none) :
    subToks mucMarkSub (u ++ v) = u ++ r := by
  rw [subToks_first_match mucMarkSub u v r hm (matchAt_mucSub_lt hm) hfirst]
  rcases matchAt_mucSub_eol hm with h | h <;> subst h
  · rfl
  · rfl

theorem mucRule_id_of_no_match (s : String)
    (hno : ∀ u2 ∈ s.data.tails, matchAt mucMarkSub u2 = none) : mucRule s = s := by
  obtain ⟨sd⟩ := s
  unfold mucRule
  by_cases hs : searchToks mucMarkSearch (String.mk sd).data = true
  · rw [if_pos hs, subToks_no_match _ _ hno]
  · rw [if_neg hs]

/-- C3, amended: rule 1 — applied before the enactment rule, as the first
conjunct shows — substitutes the pattern "marker, lazy non-newline run,
`$`" (the marker's period is an unescaped wildcard).  For every text: each
match of that pattern ends at the end of the text or just before a final
newline, so only a tail of the final line is ever deleted and a trailing
newline survives; at the first matching position the substitution deletes
exactly from there to that end, keeping everything before the marker; and
when no position matches — in particular whenever the marker sits only on
non-final lines, since the lazy run cannot cross a newline — rule 1
returns the text unchanged.  The spec's scenario thus yields
`"nội dung\n\n"`, not `"nội dung\n"`. -/
theorem C3_truncation_amended :
    (∀ t : String, post_process t = luatRule (mucRule t)) ∧
    (∀ v r : List Char, matchAt mucMarkSub v = some r → r = [] ∨ r = ['\n']) ∧
    (∀ u v r : List Char, matchAt mucMarkSub v = some r →
        (∀ u2 ∈ u.tails, u2 ≠ [] → matchAt mucMarkSub (u2 ++ v) = none) →
        subToks mucMarkSub (u ++ v) = u ++ r) ∧
    (∀ s : String, (∀ u2 ∈ s.data.tails, matchAt mucMarkSub u2 = none) → mucRule s = s) ∧
    post_process "nội dung\nMục 2. Quyền và nghĩa vụ\n" = "nội dung\n\n" ∧
    post_process "A\nMục 2. B\nC\n" = "A\nMục 2. B\nC\n" ∧
    post_process "X\nMục 2. Luật này được Quốc hội\n" = "X\n\n" :=
  ⟨post_process_rules, fun _ _ h => matchAt_mucSub_eol h, subToks_mucSub_cut,
   mucRule_id_of_no_match, by decide, by decide, by decide⟩

/-- C3, witness for the amended theorem: the scenario's final line as the
matching position (preceding text match-free), and an earlier-line-only
marker text for the no-match identity. -/
theorem C3_truncation_amended_w :
    matchAt mucMarkSub "Mục 2. Quyền và nghĩa vụ\n".data = some ['\n'] ∧
    (['\n'] = ([] : List Char) ∨ ['\n'] = ['\n']) ∧
    (∀ u2 ∈ "nội dung\n".data.tails, u2 ≠ [] →
        matchAt mucMarkSub (u2 ++ "Mục 2. Quyền và nghĩa vụ\n".data) = none) ∧
    subToks mucMarkSub ("nội dung\n".data ++ "Mục 2. Quyền và nghĩa vụ\n".data) =
      "nội dung\n".data ++ ['\n'] ∧
    (∀ u2 ∈ ("A\nMục 2. B\nC\n" : String).data.tails, matchAt mucMarkSub u2 = none) ∧
    mucRule "A\nMục 2. B\nC\n" = "A\nMục 2. B\nC\n" :=
  ⟨by decide,
   C3_truncation_amended.2.1 "Mục 2. Quyền và nghĩa vụ\n".data ['\n'] (by decide),
   by decide,
   C3_truncation_amended.2.2.1 _ _ _ (by decide) (by decide),
   by decide,
   C3_truncation_amended.2.2.2.1 "A\nMục 2. B\nC\n" (by decide)⟩
